import Mathlib

/-!
Verification of the QIM video-steganography codec of `src/main.py`.

The file shallowly embeds the program's data model and operations:

* bytes are `Nat` values (with `< 256` hypotheses where the program can only
  produce byte values), bitstreams are `List Bool` (`true` ↔ character `'1'`),
  payloads are `List Nat`;
* Python's `round` (banker's rounding, also used by numpy scalars) is
  `pyRound`, Python's `abs` is `pyAbs`, and the per-coefficient QIM rules of
  `embed` / `extract` are `encodeBit` / `decodeBit` over `ℚ`;
* a frame is represented by the sequence of designated DCT coefficients of
  its 8×8 blocks in the program's scan order, one `ℚ` per block, as the
  extractor sees them; `extract`'s per-block action on such a frame is exactly
  `decodeBit`. The forward/inverse DCT pair is the program's external float32
  primitive (spec §1, §6), and the pixel-domain write-back of `embed`
  (`cv2.idct`, `np.clip(0, 255)`, the `uint8` cast of src/main.py lines 85-87)
  and the lossy `mp4v` re-encode between the two runs are *not* modelled:
  their effect on a re-read coefficient passes through that float32
  transform, so no statement here couples the coefficients `embed` writes to
  the coefficients `extract` later reads;
* the control flow of `embed` (cursor exhaustion, pass-through) and of
  `extract` (accumulator, inline header detection, `total_bits_to_extract`,
  the `extraction_failed` flag, and the frame loop that only terminates when
  the stream ends) is translated statement by statement.
-/

namespace LastVid

/-- The bytes of the constant `MARKER = b'VCiph_START'` of `src/main.py`. -/
def MARKER : List Nat := [86, 67, 105, 112, 104, 95, 83, 84, 65, 82, 84]

/-- The constant `QUANTIZATION_STEP = 4` of `src/main.py`, as a rational. -/
def QUANTIZATION_STEP : ℚ := 4

/-- The value `header_len_bits = (len(MARKER) + 4) * 8` computed in `extract`. -/
def headerLenBits : Nat := (MARKER.length + 4) * 8

/-- The value `header_len = marker_len + 4` computed in `_bitstream_to_payload`. -/
def headerLen : Nat := MARKER.length + 4

/-- Python's `round`: round half to even (banker's rounding), the rounding
used by `round(...)` in `embed` and `extract`. -/
def pyRound (x : ℚ) : ℤ :=
  if x - ⌊x⌋ < 1/2 then ⌊x⌋
  else if 1/2 < x - ⌊x⌋ then ⌊x⌋ + 1
  else if ⌊x⌋ % 2 = 0 then ⌊x⌋ else ⌊x⌋ + 1

/-- Python's `abs` on a rational value. -/
def pyAbs (x : ℚ) : ℚ := if x < 0 then -x else x

/-- The coefficient replacement of `embed` (src/main.py lines 80-84): bit `'0'`
snaps the coefficient to the nearest multiple of `q`, bit `'1'` to the nearest
odd multiple of `q/2`. `false` stands for the character `'0'`. -/
def encodeBit (c : ℚ) (b : Bool) : ℚ :=
  if b then pyRound ((c - QUANTIZATION_STEP/2) / QUANTIZATION_STEP) * QUANTIZATION_STEP
            + QUANTIZATION_STEP/2
  else pyRound (c / QUANTIZATION_STEP) * QUANTIZATION_STEP

/-- The value `nearest_zero = round(coeff / q) * q` of `extract`. -/
def nearestZero (c : ℚ) : ℚ := pyRound (c / QUANTIZATION_STEP) * QUANTIZATION_STEP

/-- The value `nearest_one = round((coeff - q/2) / q) * q + q/2` of `extract`. -/
def nearestOne (c : ℚ) : ℚ :=
  pyRound ((c - QUANTIZATION_STEP/2) / QUANTIZATION_STEP) * QUANTIZATION_STEP
    + QUANTIZATION_STEP/2

/-- The value `dist_to_zero = abs(coeff - nearest_zero)` of `extract`. -/
def distToZero (c : ℚ) : ℚ := pyAbs (c - nearestZero c)

/-- The value `dist_to_one = abs(coeff - nearest_one)` of `extract`. -/
def distToOne (c : ℚ) : ℚ := pyAbs (c - nearestOne c)

/-- The per-block decision of `extract` (src/main.py line 140):
`'0' if dist_to_zero <= dist_to_one else '1'`. -/
def decodeBit (c : ℚ) : Bool :=
  if distToZero c ≤ distToOne c then false else true

lemma pyAbs_eq_abs (x : ℚ) : pyAbs x = |x| := by
  unfold pyAbs
  split_ifs with h
  · exact (abs_of_neg h).symm
  · exact (abs_of_nonneg (not_lt.mp h)).symm

lemma pyRound_eq_of_abs_lt {n : ℤ} {x : ℚ} (h : |x - n| < 1/2) : pyRound x = n := by
  have h1 : (n : ℚ) - 1/2 < x := by
    have := (abs_lt.mp h).1
    linarith
  have h2 : x < (n : ℚ) + 1/2 := by
    have := (abs_lt.mp h).2
    linarith
  unfold pyRound
  rcases le_or_lt (n : ℚ) x with hx | hx
  · have hf : ⌊x⌋ = n := by
      rw [Int.floor_eq_iff]
      constructor
      · exact_mod_cast hx
      · linarith
    rw [hf]
    rw [if_pos (by linarith)]
  · have hf : ⌊x⌋ = n - 1 := by
      rw [Int.floor_eq_iff]
      constructor
      · push_cast
        linarith
      · push_cast
        linarith
    rw [hf]
    rw [if_neg (by push_cast; linarith), if_pos (by push_cast; linarith)]
    omega

lemma encodeBit_false (c : ℚ) : encodeBit c false = pyRound (c / 4) * 4 := by
  simp [encodeBit, QUANTIZATION_STEP]

lemma encodeBit_true (c : ℚ) : encodeBit c true = pyRound ((c - 2) / 4) * 4 + 2 := by
  simp only [encodeBit, QUANTIZATION_STEP, if_true]
  norm_num

lemma nearestZero_eq (c : ℚ) : nearestZero c = pyRound (c / 4) * 4 := by
  simp [nearestZero, QUANTIZATION_STEP]

lemma nearestOne_eq (c : ℚ) : nearestOne c = pyRound ((c - 2) / 4) * 4 + 2 := by
  simp only [nearestOne, QUANTIZATION_STEP]
  norm_num

lemma abs_four_mul_sub_two (t : ℤ) : (2 : ℚ) ≤ |4 * (t : ℚ) - 2| := by
  rcases le_or_lt t 0 with ht | ht
  · have ht' : (t : ℚ) ≤ 0 := by exact_mod_cast ht
    rw [abs_of_nonpos (by linarith)]
    linarith
  · have ht' : (1 : ℚ) ≤ (t : ℚ) := by exact_mod_cast ht
    rw [abs_of_nonneg (by linarith)]
    linarith

lemma abs_four_mul_add_two (t : ℤ) : (2 : ℚ) ≤ |4 * (t : ℚ) + 2| := by
  have := abs_four_mul_sub_two (-t)
  push_cast at this
  rw [show 4 * -(t : ℚ) - 2 = -(4 * t + 2) by ring, abs_neg] at this
  exact this

/-- Core noise-tolerance property of the QIM bit codec: any perturbation of
absolute value below `1 = q/4` leaves the decoded bit intact. -/
lemma qim_noise (c e : ℚ) (b : Bool) (he : |e| < 1) :
    decodeBit (encodeBit c b + e) = b := by
  have habs := abs_nonneg e
  cases b with
  | false =>
    set k : ℤ := pyRound (c / 4) with hk
    rw [encodeBit_false, ← hk]
    have hz : nearestZero ((k : ℚ) * 4 + e) = (k : ℚ) * 4 := by
      rw [nearestZero_eq]
      have harg : ((k : ℚ) * 4 + e) / 4 = (k : ℚ) + e / 4 := by ring
      rw [harg, pyRound_eq_of_abs_lt (n := k) (by
        rw [show (k : ℚ) + e / 4 - k = e / 4 by ring, abs_div]
        rw [abs_of_nonneg (by norm_num : (0:ℚ) ≤ 4)]
        linarith)]
    have hd0 : distToZero ((k : ℚ) * 4 + e) = |e| := by
      rw [distToZero, pyAbs_eq_abs, hz]
      ring_nf
    set m : ℤ := pyRound (((k : ℚ) * 4 + e - 2) / 4) with hm
    have ho : nearestOne ((k : ℚ) * 4 + e) = (m : ℚ) * 4 + 2 := by
      rw [nearestOne_eq, ← hm]
    have hd1 : distToOne ((k : ℚ) * 4 + e) = |4 * ((k : ℚ) - (m : ℚ)) - 2 + e| := by
      rw [distToOne, pyAbs_eq_abs, ho]
      ring_nf
    have hge : (2 : ℚ) - |e| ≤ distToOne ((k : ℚ) * 4 + e) := by
      rw [hd1]
      have h2 := abs_four_mul_sub_two (k - m)
      push_cast at h2
      have htri : |4 * ((k : ℚ) - m) - 2| ≤ |4 * ((k : ℚ) - m) - 2 + e| + |e| := by
        calc |4 * ((k : ℚ) - m) - 2| = |(4 * ((k : ℚ) - m) - 2 + e) + (-e)| := by ring_nf
        _ ≤ |4 * ((k : ℚ) - m) - 2 + e| + |(-e)| := abs_add _ _
        _ = |4 * ((k : ℚ) - m) - 2 + e| + |e| := by rw [abs_neg]
      linarith
    unfold decodeBit
    rw [if_pos (by rw [hd0]; linarith)]
  | true =>
    set m : ℤ := pyRound ((c - 2) / 4) with hm
    rw [encodeBit_true, ← hm]
    have ho : nearestOne ((m : ℚ) * 4 + 2 + e) = (m : ℚ) * 4 + 2 := by
      rw [nearestOne_eq]
      have harg : ((m : ℚ) * 4 + 2 + e - 2) / 4 = (m : ℚ) + e / 4 := by ring
      rw [harg, pyRound_eq_of_abs_lt (n := m) (by
        rw [show (m : ℚ) + e / 4 - m = e / 4 by ring, abs_div]
        rw [abs_of_nonneg (by norm_num : (0:ℚ) ≤ 4)]
        linarith)]
    have hd1 : distToOne ((m : ℚ) * 4 + 2 + e) = |e| := by
      rw [distToOne, pyAbs_eq_abs, ho]
      ring_nf
    set k : ℤ := pyRound (((m : ℚ) * 4 + 2 + e) / 4) with hk
    have hz : nearestZero ((m : ℚ) * 4 + 2 + e) = (k : ℚ) * 4 := by
      rw [nearestZero_eq, ← hk]
    have hd0 : distToZero ((m : ℚ) * 4 + 2 + e) = |4 * ((m : ℚ) - (k : ℚ)) + 2 + e| := by
      rw [distToZero, pyAbs_eq_abs, hz]
      ring_nf
    have hge : (2 : ℚ) - |e| ≤ distToZero ((m : ℚ) * 4 + 2 + e) := by
      rw [hd0]
      have h2 := abs_four_mul_add_two (m - k)
      push_cast at h2
      have htri : |4 * ((m : ℚ) - k) + 2| ≤ |4 * ((m : ℚ) - k) + 2 + e| + |e| := by
        calc |4 * ((m : ℚ) - k) + 2| = |(4 * ((m : ℚ) - k) + 2 + e) + (-e)| := by ring_nf
        _ ≤ |4 * ((m : ℚ) - k) + 2 + e| + |(-e)| := abs_add _ _
        _ = |4 * ((m : ℚ) - k) + 2 + e| + |e| := by rw [abs_neg]
      linarith
    unfold decodeBit
    rw [if_neg (by rw [hd1]; intro hle; linarith)]

/-- Idempotent decode: the encode lattice point decodes back to its bit. -/
lemma qim_id (c : ℚ) (b : Bool) : decodeBit (encodeBit c b) = b := by
  have h := qim_noise c 0 b (by norm_num)
  simpa using h

/-- C5: for every coefficient `c0`, bit `b` and perturbation `e` with
`|e| < q/4`, decoding the perturbed encoded coefficient recovers the bit:
`decodeBit (encodeBit c0 b + e) = b`. -/
theorem c5_noise_tolerance (c0 e : ℚ) (b : Bool)
    (he : |e| < QUANTIZATION_STEP / 4) :
    decodeBit (encodeBit c0 b + e) = b := by
  apply qim_noise
  have : QUANTIZATION_STEP / 4 = 1 := by norm_num [QUANTIZATION_STEP]
  rwa [this] at he

theorem c5_noise_tolerance_witness :
    |(1 : ℚ)/2| < QUANTIZATION_STEP / 4 ∧
      decodeBit (encodeBit (1/3) true + 1/2) = true :=
  ⟨by rw [abs_of_nonneg (by norm_num)]; norm_num [QUANTIZATION_STEP],
   c5_noise_tolerance (1/3) (1/2) true
     (by rw [abs_of_nonneg (by norm_num)]; norm_num [QUANTIZATION_STEP])⟩

/-- C6: a coefficient exactly equidistant from its nearest 0-lattice point and
its nearest 1-lattice point decodes to bit 0 (`false`), because the comparison
`dist_to_zero <= dist_to_one` uses `≤`. -/
theorem c6_tie_break (c : ℚ) (h : distToZero c = distToOne c) :
    decodeBit c = false := by
  unfold decodeBit
  rw [if_pos (le_of_eq h)]

lemma distToZero_one : distToZero 1 = 1 := by
  rw [distToZero, pyAbs_eq_abs, nearestZero_eq]
  rw [show pyRound ((1:ℚ) / 4) = 0 from
    pyRound_eq_of_abs_lt (by rw [abs_lt]; constructor <;> norm_num)]
  norm_num

lemma distToOne_one : distToOne 1 = 1 := by
  rw [distToOne, pyAbs_eq_abs, nearestOne_eq]
  rw [show ((1:ℚ) - 2) / 4 = -1/4 by norm_num]
  rw [show pyRound (-1/4 : ℚ) = 0 from
    pyRound_eq_of_abs_lt (by rw [abs_lt]; constructor <;> norm_num)]
  norm_num

theorem c6_tie_break_witness :
    distToZero 1 = distToOne 1 ∧ decodeBit 1 = false := by
  have h : distToZero 1 = distToOne 1 := by rw [distToZero_one, distToOne_one]
  exact ⟨h, c6_tie_break 1 h⟩

/-- The eight characters of `format(byte, '08b')`, most significant bit
first, as booleans (`true` ↔ `'1'`); faithful for byte values `< 256`. -/
def byteToBits (b : Nat) : List Bool :=
  [b.testBit 7, b.testBit 6, b.testBit 5, b.testBit 4,
   b.testBit 3, b.testBit 2, b.testBit 1, b.testBit 0]

/-- The bits `''.join(format(byte, '08b') for byte in data)` of `_payload_to_bitstream`. -/
def bytesToBits : List Nat → List Bool
  | [] => []
  | b :: bs => byteToBits b ++ bytesToBits bs

/-- The value `int(s, 2)` of a nonempty string of `'0'`/`'1'` characters. -/
def bitsVal (l : List Bool) : Nat :=
  l.foldl (fun a b => 2 * a + (if b then 1 else 0)) 0

/-- The bytes `bytearray(int(bitstream[i:i+8], 2) for i in range(0, len(bitstream), 8))`
of `_bitstream_to_payload`: chunks of eight bits, a shorter final chunk when
the bit count is not a multiple of eight. -/
def bitsToBytes : List Bool → List Nat
  | [] => []
  | b0 :: b1 :: b2 :: b3 :: b4 :: b5 :: b6 :: b7 :: rest =>
      bitsVal [b0, b1, b2, b3, b4, b5, b6, b7] :: bitsToBytes rest
  | l => [bitsVal l]

lemma bitsToBytes_nil : bitsToBytes [] = [] := rfl

/-- The bytes `len(payload_data).to_bytes(4, byteorder='big')`, faithful for values
below `2^32` (beyond that the Python call raises `OverflowError`). -/
def natToBeBytes4 (n : Nat) : List Nat :=
  [n / 2^24 % 256, n / 2^16 % 256, n / 2^8 % 256, n % 256]

/-- The value `int.from_bytes(bs, byteorder='big')`. -/
def beBytesToNat (bs : List Nat) : Nat :=
  bs.foldl (fun a b => 256 * a + b) 0

/-- Serialization, `_payload_to_bitstream` (src/main.py lines 11-22), applied to the payload
bytes read from the file: `MARKER`, the 4-byte big-endian length, then the
payload, all converted to bits most-significant-bit first. -/
def payloadToBitstream (payload : List Nat) : List Bool :=
  bytesToBits (MARKER ++ natToBeBytes4 payload.length ++ payload)

/-- The outcomes of `_bitstream_to_payload` (src/main.py lines 24-47): the
three early-return `False` paths, distinguished by their printed message, and
the success path with the bytes written to the output file. -/
inductive ParseResult : Type
  | incompleteHeader : ParseResult
  | markerMismatch : ParseResult
  | truncatedPayload : ParseResult
  | ok : List Nat → ParseResult
deriving DecidableEq

/-- Parsing, `_bitstream_to_payload` (src/main.py lines 24-47). -/
def bitstreamToPayload (bitstream : List Bool) : ParseResult :=
  let byteArray := bitsToBytes bitstream
  if byteArray.length < headerLen then .incompleteHeader
  else if byteArray.take MARKER.length ≠ MARKER then .markerMismatch
  else
    let payloadLength := beBytesToNat ((byteArray.drop MARKER.length).take 4)
    let payloadData := (byteArray.drop headerLen).take payloadLength
    if payloadData.length ≠ payloadLength then .truncatedPayload
    else .ok payloadData

lemma length_byteToBits (b : Nat) : (byteToBits b).length = 8 := rfl

lemma length_bytesToBits (bs : List Nat) : (bytesToBits bs).length = 8 * bs.length := by
  induction bs with
  | nil => rfl
  | cons b bs ih =>
    simp only [bytesToBits, List.length_append, length_byteToBits, ih, List.length_cons]
    ring

lemma bytesToBits_append (a b : List Nat) :
    bytesToBits (a ++ b) = bytesToBits a ++ bytesToBits b := by
  induction a with
  | nil => rfl
  | cons x a ih => simp [bytesToBits, ih]

set_option maxRecDepth 8000 in
lemma bitsVal_byteToBits : ∀ b < 256, bitsVal (byteToBits b) = b := by decide

lemma byteToBits_bitsVal_eight : ∀ (a b c d e f g h : Bool),
    byteToBits (bitsVal [a, b, c, d, e, f, g, h]) = [a, b, c, d, e, f, g, h] := by
  decide

lemma byteToBits_bitsVal {l : List Bool} (hl : l.length = 8) :
    byteToBits (bitsVal l) = l := by
  rcases l with _ | ⟨a, _ | ⟨b, _ | ⟨c, _ | ⟨d, _ | ⟨e, _ | ⟨f, _ | ⟨g, _ | ⟨h, rest⟩⟩⟩⟩⟩⟩⟩⟩ <;>
    simp only [List.length_cons, List.length_nil] at hl <;> try omega
  have hrest : rest = [] := by
    cases rest with
    | nil => rfl
    | cons x xs => simp at hl
  subst hrest
  exact byteToBits_bitsVal_eight a b c d e f g h

lemma bitsToBytes_chunk {l : List Bool} (hl : l.length = 8) (e : List Bool) :
    bitsToBytes (l ++ e) = bitsVal l :: bitsToBytes e := by
  rcases l with _ | ⟨a, _ | ⟨b, _ | ⟨c, _ | ⟨d, _ | ⟨x, _ | ⟨f, _ | ⟨g, _ | ⟨h, rest⟩⟩⟩⟩⟩⟩⟩⟩ <;>
    simp only [List.length_cons, List.length_nil] at hl <;> try omega
  have hrest : rest = [] := by
    cases rest with
    | nil => rfl
    | cons y ys => simp at hl
  subst hrest
  rfl

lemma bitsToBytes_short {l : List Bool} (h0 : l ≠ []) (h7 : l.length ≤ 7) :
    bitsToBytes l = [bitsVal l] := by
  rcases l with _ | ⟨a, _ | ⟨b, _ | ⟨c, _ | ⟨d, _ | ⟨x, _ | ⟨f, _ | ⟨g, _ | ⟨h, rest⟩⟩⟩⟩⟩⟩⟩⟩ <;>
    first
      | exact absurd rfl h0
      | rfl
      | (simp only [List.length_cons] at h7; omega)

lemma bitsToBytes_bytesToBits_append (bs : List Nat) (g : List Bool)
    (hbs : ∀ b ∈ bs, b < 256) :
    bitsToBytes (bytesToBits bs ++ g) = bs ++ bitsToBytes g := by
  induction bs with
  | nil => rfl
  | cons b bs ih =>
    rw [bytesToBits, List.append_assoc, bitsToBytes_chunk (length_byteToBits b)]
    rw [bitsVal_byteToBits b (hbs b (by simp)), ih (fun x hx => hbs x (by simp [hx]))]
    rfl

lemma bitsToBytes_bytesToBits (bs : List Nat) (hbs : ∀ b ∈ bs, b < 256) :
    bitsToBytes (bytesToBits bs) = bs := by
  have h := bitsToBytes_bytesToBits_append bs [] hbs
  simpa [bitsToBytes_nil] using h

lemma bitsToBytes_append8_fuel : ∀ (n : Nat) (l₁ l₂ : List Bool), l₁.length = 8 * n →
    bitsToBytes (l₁ ++ l₂) = bitsToBytes l₁ ++ bitsToBytes l₂ := by
  intro n
  induction n with
  | zero =>
    intro l₁ l₂ h
    have h0 : l₁ = [] := List.eq_nil_of_length_eq_zero (by omega)
    subst h0
    rfl
  | succ k ih =>
    intro l₁ l₂ h
    have h8 : 8 ≤ l₁.length := by omega
    have htl : (l₁.take 8).length = 8 := by
      simp only [List.length_take]
      omega
    have hdl : (l₁.drop 8).length = 8 * k := by
      simp only [List.length_drop]
      omega
    conv_lhs => rw [← List.take_append_drop 8 l₁, List.append_assoc,
      bitsToBytes_chunk htl]
    conv_rhs => rw [← List.take_append_drop 8 l₁, bitsToBytes_chunk htl]
    rw [ih (l₁.drop 8) l₂ hdl]
    rfl

lemma bitsToBytes_append8 (l₁ l₂ : List Bool) (h : l₁.length % 8 = 0) :
    bitsToBytes (l₁ ++ l₂) = bitsToBytes l₁ ++ bitsToBytes l₂ :=
  bitsToBytes_append8_fuel (l₁.length / 8) l₁ l₂ (by omega)

lemma bytesToBits_bitsToBytes_fuel : ∀ (n : Nat) (l : List Bool), l.length = 8 * n →
    bytesToBits (bitsToBytes l) = l := by
  intro n
  induction n with
  | zero =>
    intro l h
    have h0 : l = [] := List.eq_nil_of_length_eq_zero (by omega)
    subst h0
    rfl
  | succ k ih =>
    intro l h
    have h8 : 8 ≤ l.length := by omega
    have htl : (l.take 8).length = 8 := by
      simp only [List.length_take]
      omega
    have hdl : (l.drop 8).length = 8 * k := by
      simp only [List.length_drop]
      omega
    conv_lhs => rw [← List.take_append_drop 8 l, bitsToBytes_chunk htl]
    rw [bytesToBits, byteToBits_bitsVal htl, ih (l.drop 8) hdl]
    exact List.take_append_drop 8 l

lemma bytesToBits_bitsToBytes (l : List Bool) (h : l.length % 8 = 0) :
    bytesToBits (bitsToBytes l) = l :=
  bytesToBits_bitsToBytes_fuel (l.length / 8) l (by omega)

lemma length_bitsToBytes_fuel : ∀ (n : Nat) (l : List Bool), l.length ≤ n →
    (bitsToBytes l).length = (l.length + 7) / 8 := by
  intro n
  induction n with
  | zero =>
    intro l h
    have h0 : l = [] := List.eq_nil_of_length_eq_zero (by omega)
    subst h0
    rfl
  | succ k ih =>
    intro l h
    rcases eq_or_ne l [] with rfl | h0
    · rfl
    by_cases h7 : l.length ≤ 7
    · rw [bitsToBytes_short h0 h7]
      have hpos : 0 < l.length := List.length_pos.mpr h0
      simp only [List.length_singleton]
      omega
    · have h8 : 8 ≤ l.length := by omega
      have htl : (l.take 8).length = 8 := by
        simp only [List.length_take]
        omega
      conv_lhs => rw [← List.take_append_drop 8 l, bitsToBytes_chunk htl]
      rw [List.length_cons, ih (l.drop 8) (by simp only [List.length_drop]; omega)]
      simp only [List.length_drop]
      omega

lemma length_bitsToBytes (l : List Bool) :
    (bitsToBytes l).length = (l.length + 7) / 8 :=
  length_bitsToBytes_fuel l.length l le_rfl

lemma bitsToBytes_take_marker (l e : List Bool) (hl : 88 ≤ l.length) :
    (bitsToBytes (l ++ e)).take 11 = (bitsToBytes l).take 11 := by
  have key : ∀ (r : List Bool), (bitsToBytes (l.take 88 ++ r)).take 11 =
      bitsToBytes (l.take 88) := by
    intro r
    have h88 : (l.take 88).length % 8 = 0 := by
      simp [List.length_take]
      omega
    rw [bitsToBytes_append8 _ _ h88]
    have h11 : (bitsToBytes (l.take 88)).length = 11 := by
      rw [length_bitsToBytes]
      simp [List.length_take]
      omega
    rw [← h11, List.take_left]
  have hl' : l = l.take 88 ++ l.drop 88 := (List.take_append_drop 88 l).symm
  calc (bitsToBytes (l ++ e)).take 11
      = (bitsToBytes (l.take 88 ++ (l.drop 88 ++ e))).take 11 := by
        rw [← List.append_assoc, ← hl']
    _ = bitsToBytes (l.take 88) := key _
    _ = (bitsToBytes (l.take 88 ++ l.drop 88)).take 11 := (key _).symm
    _ = (bitsToBytes l).take 11 := by rw [← hl']

lemma natToBeBytes4_lt (n : Nat) : ∀ x ∈ natToBeBytes4 n, x < 256 := by
  intro x hx
  simp only [natToBeBytes4, List.mem_cons, List.not_mem_nil, or_false] at hx
  rcases hx with h | h | h | h <;> subst h <;> omega

lemma beBytesToNat_natToBeBytes4 {n : Nat} (hn : n < 2^32) :
    beBytesToNat (natToBeBytes4 n) = n := by
  simp only [natToBeBytes4, beBytesToNat, List.foldl]
  omega

lemma MARKER_lt : ∀ x ∈ MARKER, x < 256 := by decide

lemma MARKER_length : MARKER.length = 11 := rfl

/-- Parsing a bitstream made of the full framed byte sequence followed by any
trailing garbage bits returns exactly the payload. -/
lemma parse_framed (p : List Nat) (g : List Bool)
    (hb : ∀ b ∈ p, b < 256) (hlen : p.length < 2^32) :
    bitstreamToPayload (bytesToBits (MARKER ++ natToBeBytes4 p.length ++ p) ++ g)
      = .ok p := by
  have hall : ∀ b ∈ MARKER ++ natToBeBytes4 p.length ++ p, b < 256 := by
    intro b hbmem
    simp only [List.mem_append] at hbmem
    rcases hbmem with (h | h) | h
    · exact MARKER_lt b h
    · exact natToBeBytes4_lt _ b h
    · exact hb b h
  have hbytes : bitsToBytes (bytesToBits (MARKER ++ natToBeBytes4 p.length ++ p) ++ g)
      = (MARKER ++ natToBeBytes4 p.length ++ p) ++ bitsToBytes g :=
    bitsToBytes_bytesToBits_append _ g hall
  unfold bitstreamToPayload
  rw [hbytes]
  have hlen4 : (natToBeBytes4 p.length).length = 4 := rfl
  have hlen15 : (MARKER ++ natToBeBytes4 p.length).length = 15 := by
    simp [List.length_append, MARKER_length, hlen4]
  have hnotshort : ¬ ((MARKER ++ natToBeBytes4 p.length ++ p) ++ bitsToBytes g).length
      < headerLen := by
    simp only [List.length_append, MARKER_length, hlen4, headerLen]
    omega
  rw [if_neg hnotshort]
  have htake : ((MARKER ++ natToBeBytes4 p.length ++ p) ++ bitsToBytes g).take
      MARKER.length = MARKER := by
    rw [List.append_assoc, List.append_assoc]
    exact List.take_left' rfl
  rw [if_neg (by rw [htake]; simp)]
  have hdrop11 : ((MARKER ++ natToBeBytes4 p.length ++ p) ++ bitsToBytes g).drop
      MARKER.length = natToBeBytes4 p.length ++ (p ++ bitsToBytes g) := by
    rw [List.append_assoc, List.append_assoc]
    exact List.drop_left' rfl
  have hlenfield : (((MARKER ++ natToBeBytes4 p.length ++ p) ++ bitsToBytes g).drop
      MARKER.length).take 4 = natToBeBytes4 p.length := by
    rw [hdrop11]
    exact List.take_left' hlen4
  have hdrop15 : ((MARKER ++ natToBeBytes4 p.length ++ p) ++ bitsToBytes g).drop
      headerLen = p ++ bitsToBytes g := by
    rw [List.append_assoc]
    exact List.drop_left' hlen15
  simp only [hlenfield, beBytesToNat_natToBeBytes4 hlen, hdrop15]
  rw [List.take_left' rfl]
  simp

/-- C10: serializing any payload of fewer than `2^32` bytes and parsing the
resulting bitstream back succeeds and yields exactly the payload. -/
theorem c10_framing_roundtrip (p : List Nat)
    (hb : ∀ b ∈ p, b < 256) (hlen : p.length < 2^32) :
    bitstreamToPayload (payloadToBitstream p) = .ok p := by
  have h := parse_framed p [] hb hlen
  simpa [payloadToBitstream] using h

theorem c10_framing_roundtrip_witness :
    bitstreamToPayload (payloadToBitstream [65, 66, 67]) = .ok [65, 66, 67] :=
  c10_framing_roundtrip [65, 66, 67] (by decide) (by norm_num)

/-- C7: on any bitstream whose decoded bytes start with `MARKER` followed by a
4-byte big-endian length `L`, parsing fails with `TruncatedPayload` when fewer
than `L` bytes remain after the header, and otherwise returns exactly the
first `L` bytes after the header, ignoring all further bits. -/
theorem c7_length_handling (bits : List Bool)
    (hmark : (bitsToBytes bits).take MARKER.length = MARKER)
    (hlen : headerLen ≤ (bitsToBytes bits).length) :
    ((bitsToBytes bits).length - headerLen <
        beBytesToNat (((bitsToBytes bits).drop MARKER.length).take 4) →
      bitstreamToPayload bits = .truncatedPayload) ∧
    (beBytesToNat (((bitsToBytes bits).drop MARKER.length).take 4) ≤
        (bitsToBytes bits).length - headerLen →
      bitstreamToPayload bits = .ok (((bitsToBytes bits).drop headerLen).take
        (beBytesToNat (((bitsToBytes bits).drop MARKER.length).take 4)))) := by
  unfold bitstreamToPayload
  rw [if_neg (by omega), if_neg (by rw [hmark]; simp)]
  set L := beBytesToNat (((bitsToBytes bits).drop MARKER.length).take 4) with hL
  have hdatalen : (((bitsToBytes bits).drop headerLen).take L).length =
      min L ((bitsToBytes bits).length - headerLen) := by
    simp [List.length_take, List.length_drop]
  constructor
  · intro hshort
    rw [if_pos (by rw [hdatalen]; omega)]
  · intro hok
    rw [if_neg (by rw [hdatalen]; omega)]

theorem c7_length_handling_witness :
    bitstreamToPayload (bytesToBits (MARKER ++ [0, 0, 0, 1] ++ [65, 66])) =
      .ok [65] := by
  have h := (c7_length_handling (bytesToBits (MARKER ++ [0, 0, 0, 1] ++ [65, 66]))
    (by decide) (by decide)).2 (by decide)
  simpa using h

/-- C8: any bit sequence of at least `header_len_bits` bits whose first
`len(MARKER)*8` bits differ from the bits of `MARKER` parses to
`MarkerMismatch`, whatever the remaining content. -/
theorem c8_marker_rejection (bits : List Bool)
    (hlen : headerLenBits ≤ bits.length)
    (hmark : bits.take (MARKER.length * 8) ≠ bytesToBits MARKER) :
    bitstreamToPayload bits = .markerMismatch := by
  have hlen' : (120 : Nat) ≤ bits.length := hlen
  have hbody : (bitsToBytes bits).take 11 = bitsToBytes (bits.take 88) := by
    conv_lhs => rw [← List.take_append_drop 88 bits]
    have h88 : (bits.take 88).length % 8 = 0 := by
      simp [List.length_take]
      omega
    rw [bitsToBytes_append8 _ _ h88]
    have h11 : (bitsToBytes (bits.take 88)).length = 11 := by
      rw [length_bitsToBytes]
      simp [List.length_take]
      omega
    rw [← h11, List.take_left]
  have hne : (bitsToBytes bits).take MARKER.length ≠ MARKER := by
    rw [MARKER_length, hbody]
    intro heq
    apply hmark
    rw [MARKER_length]
    show bits.take 88 = bytesToBits MARKER
    calc bits.take 88 = bytesToBits (bitsToBytes (bits.take 88)) := by
          rw [bytesToBits_bitsToBytes _ (by simp [List.length_take]; omega)]
      _ = bytesToBits MARKER := by rw [heq]
  unfold bitstreamToPayload
  rw [if_neg (by rw [length_bitsToBytes]; simp only [headerLen, MARKER_length]; omega)]
  rw [if_pos hne]

theorem c8_marker_rejection_witness :
    bitstreamToPayload (List.replicate 120 false) = .markerMismatch :=
  c8_marker_rejection (List.replicate 120 false) (by decide) (by decide)

/-- A frame, abstracted to the designated DCT coefficients of its 8×8 blocks
in the scan order of `embed`/`extract` (row bands top to bottom, blocks left to
right within a band); the transform pair is the exact external primitive of
spec §6, so one rational per block carries the whole per-block state that the
codec reads or writes. -/
abbrev Frame : Type := List ℚ

/-- The per-frame block loop of `embed` (src/main.py lines 72-91): while bits
remain, replace each block's designated coefficient via `encodeBit` and
advance the cursor; when `next(bitstream_iterator)` raises `StopIteration`
mid-frame, the remaining blocks are left untouched. Returns the processed
frame and the remaining bits of the cursor. The stored value is the encoded
coefficient *before* the pixel-domain write-back (`cv2.idct`,
`np.clip(0, 255)`, `uint8` cast — src/main.py lines 85-87), which this
embedding does not model; statements about `embedBlocks` therefore concern
which blocks are touched and what the cursor does, never the coefficient a
later `extract` run would read back from a modified block. -/
def embedBlocks : Frame → List Bool → Frame × List Bool
  | f, [] => (f, [])
  | [], bits => ([], bits)
  | c :: cs, b :: bs =>
    let r := embedBlocks cs bs
    (encodeBit c b :: r.1, r.2)

/-- The frame loop of `embed` (src/main.py lines 65-97): frames processed in
order; once the cursor is exhausted every later frame is written unchanged. -/
def embedFrames : List Frame → List Bool → List Frame
  | [], _ => []
  | f :: fs, bits =>
    let r := embedBlocks f bits
    r.1 :: embedFrames fs r.2

/-- The extractor's mutable state: `extracted_bits`, `total_bits_to_extract`
and `extraction_failed` of `extract` (src/main.py lines 117-121). -/
structure ExtractState : Type where
  bits : List Bool
  total : Option Nat
  failed : Bool
deriving DecidableEq

/-- One block of `extract`'s scan (src/main.py lines 130-156): decode the
designated coefficient, append the bit, and, while `total_bits_to_extract` is
still `None` and at least `header_len_bits` bits have accumulated, rebuild the
header bytes from the accumulated bits: a marker mismatch sets
`extraction_failed`, otherwise the declared payload length fixes
`total_bits_to_extract = header_len_bits + payload_len * 8`. -/
def extractBlockStep (s : ExtractState) (c : ℚ) : ExtractState :=
  let bits' := s.bits ++ [decodeBit c]
  match s.total with
  | none =>
    if headerLenBits ≤ bits'.length then
      let headerBytes := bitsToBytes bits'
      if headerBytes.take MARKER.length ≠ MARKER then
        { bits := bits', total := none, failed := true }
      else
        { bits := bits',
          total := some (headerLenBits +
            beBytesToNat ((headerBytes.drop MARKER.length).take 4) * 8),
          failed := s.failed }
    else { bits := bits', total := none, failed := s.failed }
  | some t => { bits := bits', total := some t, failed := s.failed }

/-- The break condition of `extract`'s block loops (src/main.py lines 158-161):
`extraction_failed or (total_bits_to_extract and
len(extracted_bits) >= total_bits_to_extract)`; `total_bits_to_extract` is
falsy in Python both when it is `None` and when it is `0`. -/
def stopScan (s : ExtractState) : Bool :=
  s.failed || (match s.total with
    | none => false
    | some t => (t != 0) && decide (t ≤ s.bits.length))

/-- The two nested block loops of `extract` over one frame: each block is
processed and the loops break as soon as the break condition holds. -/
def extractFrame : ExtractState → Frame → ExtractState
  | s, [] => s
  | s, c :: cs =>
    let s' := extractBlockStep s c
    if stopScan s' then s' else extractFrame s' cs

/-- The `while True` frame loop of `extract` (src/main.py lines 122-161): its
only exit is `cap.read()` reporting the end of the stream, so every frame of
the sequence is handed to the block loops, whatever the state. -/
def extractFrames : ExtractState → List Frame → ExtractState
  | s, [] => s
  | s, f :: fs => extractFrames (extractFrame s f) fs

/-- The extractor's initial state. -/
def initState : ExtractState := { bits := [], total := none, failed := false }

/-- The outcome of `extract` (src/main.py lines 163-168): when
`extraction_failed` is set nothing is parsed or written (`aborted`), otherwise
the accumulated bits are handed to `_bitstream_to_payload`. -/
inductive ExtractResult : Type
  | aborted : ExtractResult
  | completed : ParseResult → ExtractResult
deriving DecidableEq

/-- Extraction, `extract` (src/main.py lines 108-168), on a frame sequence. -/
def extract (frames : List Frame) : ExtractResult :=
  let s := extractFrames initState frames
  if s.failed then .aborted else .completed (bitstreamToPayload s.bits)

lemma embedBlocks_nil_bits (f : Frame) : embedBlocks f [] = (f, []) := by
  cases f <;> rfl

lemma embedBlocks_nil_frame (bits : List Bool) : (embedBlocks [] bits).1 = [] := by
  cases bits <;> rfl

lemma embedBlocks_snd (f : Frame) (bits : List Bool) :
    (embedBlocks f bits).2 = bits.drop f.length := by
  induction f generalizing bits with
  | nil => cases bits <;> rfl
  | cons c cs ih =>
    cases bits with
    | nil => rw [embedBlocks_nil_bits]; rfl
    | cons b bs => simpa [embedBlocks] using ih bs

lemma embedFrames_nil_bits (fs : List Frame) : embedFrames fs [] = fs := by
  induction fs with
  | nil => rfl
  | cons f fs ih => simp [embedFrames, embedBlocks_nil_bits, ih]

lemma embedBlocks_drop (f : Frame) (bits : List Bool) (h : bits.length ≤ f.length) :
    (embedBlocks f bits).1.drop bits.length = f.drop bits.length := by
  induction f generalizing bits with
  | nil =>
    have h0 : bits = [] := List.eq_nil_of_length_eq_zero (by simpa using h)
    subst h0
    rfl
  | cons c cs ih =>
    cases bits with
    | nil => rw [embedBlocks_nil_bits]
    | cons b bs => simpa [embedBlocks] using ih bs (by simpa using h)

/-- C9: when the bitstream cursor runs out within a frame, the remaining
blocks of that frame keep their original coefficients and every subsequent
frame is passed through exactly as read. -/
theorem c9_passthrough (f : Frame) (fs : List Frame) (bits : List Bool)
    (h : bits.length ≤ f.length) :
    embedFrames (f :: fs) bits = (embedBlocks f bits).1 :: fs ∧
      (embedBlocks f bits).1.drop bits.length = f.drop bits.length := by
  constructor
  · have hsnd : (embedBlocks f bits).2 = [] := by
      rw [embedBlocks_snd]
      exact List.drop_eq_nil_of_le h
    simp [embedFrames, hsnd, embedFrames_nil_bits]
  · exact embedBlocks_drop f bits h

theorem c9_passthrough_witness :
    embedFrames [[(0:ℚ), 0, 0], [1]] [true] =
        (embedBlocks [(0:ℚ), 0, 0] [true]).1 :: [[(1:ℚ)]] ∧
      (embedBlocks [(0:ℚ), 0, 0] [true]).1.drop 1 = [(0:ℚ), 0].drop 0 := by
  have h := c9_passthrough [(0:ℚ), 0, 0] [[1]] [true] (by simp)
  exact ⟨h.1, by simpa using h.2⟩

/-- A copy of `extractBlockStep` with the already-decided bit in place of the decoded
coefficient: the Boolean mirror of the scan, used to evaluate concrete runs
(rational arithmetic does not reduce in the kernel). -/
def extractBlockStepB (s : ExtractState) (b : Bool) : ExtractState :=
  let bits' := s.bits ++ [b]
  match s.total with
  | none =>
    if headerLenBits ≤ bits'.length then
      let headerBytes := bitsToBytes bits'
      if headerBytes.take MARKER.length ≠ MARKER then
        { bits := bits', total := none, failed := true }
      else
        { bits := bits',
          total := some (headerLenBits +
            beBytesToNat ((headerBytes.drop MARKER.length).take 4) * 8),
          failed := s.failed }
    else { bits := bits', total := none, failed := s.failed }
  | some t => { bits := bits', total := some t, failed := s.failed }

/-- Boolean mirror of `extractFrame`. -/
def extractFrameB : ExtractState → List Bool → ExtractState
  | s, [] => s
  | s, b :: bs =>
    let s' := extractBlockStepB s b
    if stopScan s' then s' else extractFrameB s' bs

/-- Boolean mirror of `extractFrames`. -/
def extractFramesB : ExtractState → List (List Bool) → ExtractState
  | s, [] => s
  | s, f :: fs => extractFramesB (extractFrameB s f) fs

/-- The relation between a coefficient frame and the bits its blocks decode
to. -/
def DecodesTo (f : Frame) (fB : List Bool) : Prop :=
  List.Forall₂ (fun c b => decodeBit c = b) f fB

lemma extractBlockStep_sim (s : ExtractState) {c : ℚ} {b : Bool}
    (h : decodeBit c = b) : extractBlockStep s c = extractBlockStepB s b := by
  subst h
  rfl

lemma extractFrame_sim : ∀ {f : Frame} {fB : List Bool} (s : ExtractState),
    DecodesTo f fB → extractFrame s f = extractFrameB s fB := by
  intro f fB s h
  induction h generalizing s with
  | nil => rfl
  | cons hcb _ ih =>
    rw [extractFrame, extractFrameB, extractBlockStep_sim _ hcb]
    split <;> [rfl; exact ih _]

lemma extractFrames_sim : ∀ {fs : List Frame} {fsB : List (List Bool)}
    (s : ExtractState), List.Forall₂ DecodesTo fs fsB →
    extractFrames s fs = extractFramesB s fsB := by
  intro fs fsB s h
  induction h generalizing s with
  | nil => rfl
  | cons hf _ ih =>
    rw [extractFrames, extractFramesB, extractFrame_sim _ hf]
    exact ih _

/-- The stego coefficient whose decoded bit is `b` with zero noise: `0` lies
on the 0-lattice, `2 = q/2` on the 1-lattice. -/
def coeffOf (b : Bool) : ℚ := if b then 2 else 0

lemma pyRound_zero : pyRound 0 = 0 :=
  pyRound_eq_of_abs_lt (by rw [abs_lt]; constructor <;> norm_num)

lemma encodeBit_zero_false : encodeBit 0 false = 0 := by
  rw [encodeBit_false, show (0:ℚ)/4 = 0 by norm_num, pyRound_zero]
  norm_num

lemma pyRound_neg_half : pyRound (-1/2 : ℚ) = 0 := by
  have hfloor : ⌊(-1/2 : ℚ)⌋ = -1 := by
    rw [Int.floor_eq_iff]
    constructor <;> push_cast <;> norm_num
  unfold pyRound
  rw [hfloor]
  rw [if_neg (by push_cast; norm_num), if_neg (by push_cast; norm_num)]
  rw [if_neg (by decide)]
  decide

lemma encodeBit_zero_true : encodeBit 0 true = 2 := by
  rw [encodeBit_true, show ((0:ℚ) - 2)/4 = -1/2 by norm_num, pyRound_neg_half]
  norm_num

lemma decodeBit_coeffOf (b : Bool) : decodeBit (coeffOf b) = b := by
  cases b with
  | false =>
    rw [show coeffOf false = encodeBit 0 false by
      rw [encodeBit_zero_false]; rfl]
    exact qim_id 0 false
  | true =>
    rw [show coeffOf true = encodeBit 0 true by
      rw [encodeBit_zero_true]; rfl]
    exact qim_id 0 true

lemma decodesTo_map (bs : List Bool) : DecodesTo (bs.map coeffOf) bs := by
  induction bs with
  | nil => exact List.Forall₂.nil
  | cons b bs ih => exact List.Forall₂.cons (decodeBit_coeffOf b) ih

/-- A 113-block single-frame carrier whose blocks decode to the 88 bits of
`MARKER` followed by 25 zero bits: the stream ends 7 bits before the header is
complete. -/
def c4Frame : Frame := (bytesToBits MARKER ++ List.replicate 25 false).map coeffOf

set_option maxRecDepth 4000 in
/-- C4 evidence: on a frame sequence that ends before the header is complete
(113 of the 120 header bits), `extract` does not fail: the truncated
accumulator re-chunks into 15 bytes (the last from a single bit), the marker
validates, the corrupted length field reads 0, and an empty payload is
produced and written as a success. -/
theorem c4_truncation_evidence :
    extract [c4Frame] = .completed (.ok []) ∧ c4Frame.length < headerLenBits := by
  have hsim : extractFrames initState [c4Frame] =
      extractFramesB initState [bytesToBits MARKER ++ List.replicate 25 false] :=
    extractFrames_sim initState
      (List.Forall₂.cons (decodesTo_map _) List.Forall₂.nil)
  constructor
  · simp only [extract, hsim]
    decide
  · simp only [c4Frame, List.length_map, headerLenBits]
    decide

/-- The two-frame carrier of the C2 counterexample: the first frame holds the
whole 120-bit stream of the empty payload (`required_bits = 120`), the second
frame is one extra block. -/
def c2Frames : List Frame := [(payloadToBitstream []).map coeffOf, [coeffOf false]]

set_option maxRecDepth 4000 in
/-- C2 counterexample: a successful run in which `required_bits = 120` is
reached inside the first frame, yet the accumulator ends with 121 bits: the
frame loop reads the second frame and decodes one more block. -/
theorem c2_counterexample :
    (extractFrames initState c2Frames).total = some 120 ∧
      (extractFrames initState c2Frames).bits.length = 121 ∧
      extract c2Frames = .completed (.ok []) := by
  have hsim : extractFrames initState c2Frames =
      extractFramesB initState [payloadToBitstream [], [false]] :=
    extractFrames_sim initState
      (List.Forall₂.cons (decodesTo_map _)
        (List.Forall₂.cons (List.Forall₂.cons (decodeBit_coeffOf false)
          List.Forall₂.nil) List.Forall₂.nil))
  refine ⟨?_, ?_, ?_⟩
  · rw [hsim]; decide
  · rw [hsim]; decide
  · simp only [extract, hsim]; decide

/-- The two-frame carrier of the C3 counterexample: 120 blocks decoding to
zero bits (so the marker check fails at bit 120), then one extra block. -/
def c3Frames : List Frame := [(List.replicate 120 false).map coeffOf, [coeffOf false]]

set_option maxRecDepth 4000 in
/-- C3 counterexample: the marker mismatch at bit 120 sets the failed flag and
no payload is produced, but extraction does not stop there: the frame loop
reads the second frame and decodes one more block (121 accumulated bits). -/
theorem c3_counterexample :
    (extractFrames initState c3Frames).failed = true ∧
      (extractFrames initState c3Frames).bits.length = 121 ∧
      extract c3Frames = .aborted := by
  have hsim : extractFrames initState c3Frames =
      extractFramesB initState [List.replicate 120 false, [false]] :=
    extractFrames_sim initState
      (List.Forall₂.cons (decodesTo_map _)
        (List.Forall₂.cons (List.Forall₂.cons (decodeBit_coeffOf false)
          List.Forall₂.nil) List.Forall₂.nil))
  refine ⟨?_, ?_, ?_⟩
  · rw [hsim]; decide
  · rw [hsim]; decide
  · simp only [extract, hsim]; decide

/-- The frames a run will still read after a break from the block loops: every
nonempty frame contributes exactly one decoded block before the break
condition is re-evaluated. -/
def countNonemptyFrames (fs : List Frame) : Nat :=
  (fs.filter (fun f => !f.isEmpty)).length

lemma countNonemptyFrames_nil : countNonemptyFrames [] = 0 := rfl

lemma countNonemptyFrames_cons_nil (fs : List Frame) :
    countNonemptyFrames ([] :: fs) = countNonemptyFrames fs := by
  simp [countNonemptyFrames]

lemma countNonemptyFrames_cons_cons (c : ℚ) (cs : Frame) (fs : List Frame) :
    countNonemptyFrames ((c :: cs) :: fs) = countNonemptyFrames fs + 1 := by
  simp [countNonemptyFrames, List.filter]

lemma extractBlockStep_total_set (s : ExtractState) (c : ℚ) (t : Nat)
    (ht : s.total = some t) :
    extractBlockStep s c =
      ⟨s.bits ++ [decodeBit c], some t, s.failed⟩ := by
  simp only [extractBlockStep, ht]

lemma stopScan_total_reached (s : ExtractState) (t : Nat) (h0 : 0 < t)
    (ht : s.total = some t) (hlen : t ≤ s.bits.length) : stopScan s = true := by
  simp only [stopScan, ht, Bool.or_eq_true, Bool.and_eq_true, bne_iff_ne,
    decide_eq_true_eq]
  right
  exact ⟨by omega, hlen⟩

/-- After `required_bits` has been reached, every remaining nonempty frame
still contributes exactly one decoded bit: the block loops break immediately
after the first block of each later frame, but the frame loop itself never
breaks before the stream ends. -/
lemma extractFrames_total_reached : ∀ (fs : List Frame) (s : ExtractState)
    (t : Nat), 0 < t → s.total = some t → t ≤ s.bits.length → s.failed = false →
    ∃ g : List Bool, extractFrames s fs = ⟨s.bits ++ g, some t, false⟩ ∧
      g.length = countNonemptyFrames fs := by
  intro fs
  induction fs with
  | nil =>
    intro s t h0 ht hlen hf
    refine ⟨[], ?_, rfl⟩
    obtain ⟨bits, total, failed⟩ := s
    simp only at ht hf
    simp [extractFrames, ht, hf]
  | cons f fs ih =>
    intro s t h0 ht hlen hf
    cases f with
    | nil =>
      obtain ⟨g, hg, hglen⟩ := ih s t h0 ht hlen hf
      refine ⟨g, ?_, ?_⟩
      · show extractFrames (extractFrame s []) fs = _
        exact hg
      · rw [hglen, countNonemptyFrames_cons_nil]
    | cons c cs =>
      have hs₁ : extractBlockStep s c = ⟨s.bits ++ [decodeBit c], some t, false⟩ := by
        rw [extractBlockStep_total_set s c t ht, hf]
      have hstop : stopScan (extractBlockStep s c) = true := by
        rw [hs₁]
        exact stopScan_total_reached _ t h0 rfl
          (by simp only [List.length_append, List.length_singleton]; omega)
      have hframe : extractFrame s (c :: cs) = ⟨s.bits ++ [decodeBit c], some t, false⟩ := by
        rw [extractFrame]
        simp only [hstop, if_true]
        exact hs₁
      obtain ⟨g, hg, hglen⟩ := ih ⟨s.bits ++ [decodeBit c], some t, false⟩ t h0 rfl
        (by simp only [List.length_append, List.length_singleton]; omega) rfl
      refine ⟨decodeBit c :: g, ?_, ?_⟩
      · show extractFrames (extractFrame s (c :: cs)) fs = _
        rw [hframe, hg]
        simp
      · rw [List.length_cons, hglen, countNonemptyFrames_cons_cons]

/-- C2 amended: once `required_bits = t` is set and the accumulator reaches
it, the block loops of the current frame stop, but the frame loop keeps
reading every remaining frame and decodes exactly one block of each nonempty
one, so the accumulator ends `countNonemptyFrames` bits past `required_bits`;
the failed flag and `required_bits` are unchanged. -/
theorem c2_stop_behaviour (fs : List Frame) (s : ExtractState) (t : Nat)
    (h0 : 0 < t) (ht : s.total = some t) (hlen : t ≤ s.bits.length)
    (hf : s.failed = false) :
    (extractFrames s fs).bits.length = s.bits.length + countNonemptyFrames fs ∧
      (extractFrames s fs).total = some t ∧
      (extractFrames s fs).failed = false := by
  obtain ⟨g, hg, hglen⟩ := extractFrames_total_reached fs s t h0 ht hlen hf
  rw [hg]
  simp [hglen]

theorem c2_stop_behaviour_witness :
    (extractFrames ⟨List.replicate 120 false, some 120, false⟩
        [[(0:ℚ)]]).bits.length = 121 ∧
      (extractFrames ⟨List.replicate 120 false, some 120, false⟩
        [[(0:ℚ)]]).failed = false := by
  have h := c2_stop_behaviour [[(0:ℚ)]] ⟨List.replicate 120 false, some 120, false⟩
    120 (by norm_num) rfl (by simp) rfl
  refine ⟨?_, h.2.2⟩
  rw [h.1]
  rfl

/-- C3 amended: when the marker check has failed (`extraction_failed` set with
`total_bits_to_extract` still `None` and the first header bytes not matching
`MARKER`), the failure is permanent — so no payload is ever parsed or written —
but extraction does not terminate at that point: the frame loop reads every
remaining frame and decodes one block of each nonempty one, re-running the
failing marker check each time. -/
theorem c3_failure_behaviour : ∀ (fs : List Frame) (s : ExtractState),
    s.failed = true → s.total = none → headerLenBits ≤ s.bits.length →
    (bitsToBytes s.bits).take MARKER.length ≠ MARKER →
    (extractFrames s fs).failed = true ∧
      (extractFrames s fs).bits.length = s.bits.length + countNonemptyFrames fs := by
  intro fs
  induction fs with
  | nil =>
    intro s hf ht hlen hm
    exact ⟨hf, by simp [extractFrames, countNonemptyFrames_nil]⟩
  | cons f fs ih =>
    intro s hf ht hlen hm
    cases f with
    | nil =>
      have h := ih s hf ht hlen hm
      refine ⟨h.1, ?_⟩
      show (extractFrames s fs).bits.length = s.bits.length + countNonemptyFrames ([] :: fs)
      rw [h.2, countNonemptyFrames_cons_nil]
    | cons c cs =>
      have hlen' : (88 : Nat) ≤ s.bits.length := by
        have : headerLenBits = 120 := rfl
        omega
      have hm' : (bitsToBytes (s.bits ++ [decodeBit c])).take MARKER.length
          ≠ MARKER := by
        rw [MARKER_length] at hm ⊢
        rw [bitsToBytes_take_marker s.bits [decodeBit c] hlen']
        exact hm
      have hs₁ : extractBlockStep s c = ⟨s.bits ++ [decodeBit c], none, true⟩ := by
        simp only [extractBlockStep, ht]
        rw [if_pos (by
          simp only [List.length_append, List.length_singleton]
          have : headerLenBits = 120 := rfl
          omega)]
        rw [if_pos hm']
      have hstop : stopScan (extractBlockStep s c) = true := by
        rw [hs₁]
        simp [stopScan]
      have hframe : extractFrame s (c :: cs) = ⟨s.bits ++ [decodeBit c], none, true⟩ := by
        rw [extractFrame]
        simp only [hstop, if_true]
        exact hs₁
      have h := ih ⟨s.bits ++ [decodeBit c], none, true⟩ rfl rfl
        (by simp only [List.length_append, List.length_singleton]
            have : headerLenBits = 120 := rfl
            omega)
        hm'
      constructor
      · show (extractFrames (extractFrame s (c :: cs)) fs).failed = true
        rw [hframe]
        exact h.1
      · show (extractFrames (extractFrame s (c :: cs)) fs).bits.length = _
        rw [hframe, h.2]
        simp only [List.length_append, List.length_singleton,
          countNonemptyFrames_cons_cons]
        omega

theorem c3_failure_behaviour_witness :
    (extractFrames ⟨List.replicate 120 false, none, true⟩ [[(0:ℚ)]]).failed = true ∧
      (extractFrames ⟨List.replicate 120 false, none, true⟩
        [[(0:ℚ)]]).bits.length = 121 := by
  have h := c3_failure_behaviour [[(0:ℚ)]] ⟨List.replicate 120 false, none, true⟩
    rfl rfl (by decide) (by decide)
  refine ⟨h.1, ?_⟩
  rw [h.2]
  rfl

end LastVid
